import Mathlib

/-!
Verification of the PII detection and transformation engine (`app.js`).

The JavaScript source is shallowly embedded: strings are `List Char`
(offsets are character indices, as in the source where all offsets are
produced by `RegExp.exec` / `String.slice` on the same string), stateful
accumulation is explicit parameter passing, and the regex engine is
either abstracted by its `exec` contract or implemented concretely for
the `email` pattern.  Recursions that must be evaluated inside proofs
are written with an explicit fuel argument that provably never runs out
for the arguments the program supplies.
-/

set_option maxRecDepth 40000

/-- A detected PII match as built in `processStandardText` / `processChunk`:
`text` is `match[0]`, `index` is `match.index` (plus the chunk origin
offset in the chunked path). -/
structure PIIMatch where
  text : List Char
  index : Nat
deriving Repr, DecidableEq

/-- Per-category detection data: the `{matches, count}` record stored in
`this.detectedPII[key]`. -/
structure PIIData where
  «matches» : List PIIMatch
  count : Nat
deriving Repr, DecidableEq

/-- A chunk as built in `processLargeText`: `{text: inputText.slice(i, end), offset: i}`. -/
structure Chunk where
  text : List Char
  offset : Nat
deriving Repr, DecidableEq

/-- The `this.processedData` record assigned in `applyEncryption`. -/
structure ProcessedData where
  originalCount : Nat
  processedCount : Nat
  method : String
  securityLevel : String
deriving Repr, DecidableEq

/-- JavaScript `str.slice(a, b)` / `str.substring(a, b)` for `a ≤ b`:
the characters in `[a, b)`, with both ends clamped to the string. -/
def sliceL (l : List Char) (a b : Nat) : List Char :=
  (l.take b).drop a

/-- Digit extraction in `luhnCheck`:
`numberStr.replace(/\D/g, '').split('').map(Number)`. -/
def luhnDigits (s : List Char) : List Nat :=
  (s.filter Char.isDigit).map (fun c => c.toNat - 48)

/-- The body of the `for` loop in `luhnCheck`: take the digit, and when
`i % 2 === parity` double it and subtract 9 if the doubled value
exceeds 9. -/
def luhnStep (parity i d : Nat) : Nat :=
  if i % 2 == parity then
    let d2 := 2 * d
    if 9 < d2 then d2 - 9 else d2
  else d

/-- The accumulation loop of `luhnCheck` (`checksum += digit`),
with explicit index and accumulator. -/
def luhnLoop (parity : Nat) : List Nat → Nat → Nat → Nat
  | [], _, acc => acc
  | d :: rest, i, acc => luhnLoop parity rest (i + 1) (acc + luhnStep parity i d)

/-- Source `luhnCheck(numberStr)`: strip non-digits, reject
digit counts outside `[13,19]`, otherwise test `checksum % 10 === 0`. -/
def luhnCheck (s : List Char) : Bool :=
  let digits := luhnDigits s
  if digits.length < 13 || digits.length > 19 then false
  else luhnLoop (digits.length % 2) digits 0 0 % 10 == 0

/-- The checksum as the specification words it: sum over digits indexed
from 0, doubling (and subtracting 9 when the doubled value exceeds 9)
exactly when `i % 2` equals the digit count mod 2. -/
def luhnSumSpec (ds : List Nat) : Nat :=
  (ds.enum.map (fun p =>
    if p.1 % 2 = ds.length % 2 then
      (if 9 < 2 * p.2 then 2 * p.2 - 9 else 2 * p.2)
    else p.2)).sum

/-- The `jsonStructureWords` array of `isJsonStructure`, verbatim
(duplicates included). -/
def jsonStructureWords : List String := [
  "timestamp", "data_source", "purpose", "records", "metadata",
  "test_dataset", "record_id", "data_classification", "contains_pii",
  "pii_types", "compliance_notes", "gdpr_applicable", "ccpa_applicable",
  "hipaa_applicable", "total_records", "order_number", "external_order_id",
  "order_date", "order_status", "order_total", "tax_amount", "shipping_amount",
  "discount_amount", "customer_id", "loyalty_member", "loyalty_tier",
  "billing_address", "shipping_address", "address_line_1", "address_line_2",
  "postal_code", "country", "shipments", "shipment_id", "tracking_number",
  "carrier", "carrier_service", "ship_date", "estimated_delivery_date",
  "actual_delivery_date", "shipment_status", "tracking_url", "shipped_from",
  "facility_name", "tracking_events", "event_date", "event_type", "location",
  "description", "carrier_event_code", "delivery_instructions", "signature_required",
  "insurance_value", "returns", "return_id", "return_date", "return_status",
  "return_reason", "return_type", "refund_amount", "return_shipping_label",
  "notifications", "order_confirmation_sent", "shipping_notification_sent",
  "delivery_notification_sent", "sms_enabled", "email_enabled", "push_notifications_enabled",
  "custom_attributes", "source_channel", "marketing_campaign", "gift_order",
  "priority_shipping", "customer_notes", "internal_notes", "payment_info",
  "payment_method", "card_type", "last_four", "payment_status", "transaction_id",
  "fulfillment_location", "warehouse_id", "warehouse_name", "created_at",
  "updated_at", "tags", "api_version", "request_id", "retailer_id", "environment",
  "items", "sku", "product_id", "name", "description", "quantity", "unit_price",
  "total_price", "category", "subcategory", "brand", "size", "color", "weight",
  "dimensions", "length", "width", "height", "unit", "image_url", "product_url",
  "gift_message", "customization", "monogram", "thread_color", "condition",
  "label_url", "amount", "currency", "value", "shipped", "in_transit",
  "delivered", "pending", "approved", "rejected", "completed", "processing",
  "canceled", "returned", "exchange", "refund", "website", "mobile_app",
  "phone", "email", "chat", "false", "true", "inches", "lbs", "kg", "cm",
  "cotton", "classic", "premium", "medium", "large", "small", "blue", "navy",
  "indigo", "black", "white", "red", "green", "front", "back", "door",
  "facility", "package", "arrived", "departed", "wrong", "size", "color",
  "style", "fit", "button", "down", "shirt", "jeans", "denim", "straight",
  "production", "development", "staging"]

/-- JavaScript `s.endsWith(suffix)`. -/
def endsWithL (s suffix : List Char) : Bool :=
  suffix.isSuffixOf s

/-- JavaScript `s.startsWith(prefixStr)`. -/
def startsWithL (s prefixStr : List Char) : Bool :=
  prefixStr.isPrefixOf s

/-- JavaScript `s.toLowerCase()` (ASCII, which is all the word list
contains). -/
def toLowerL (s : List Char) : List Char :=
  s.map Char.toLower

/-- Source `isJsonStructure(before, match, after)`: an
unconditional quote-colon-context check, then a second (subsumed) check
that additionally requires membership in `jsonStructureWords`. -/
def isJsonStructure (before m after : List Char) : Bool :=
  if endsWithL before ("\"").data && startsWithL after ("\":").data then true
  else if (jsonStructureWords.map String.data).contains (toLowerL m)
          && endsWithL before ("\"").data && startsWithL after ("\":").data then true
  else false

/-- Source `getSecurityLevel(method)`: a fixed lookup with
default `'None'`. -/
def getSecurityLevel (method : String) : String :=
  if method == "encrypt" then "High (Demo Only)"
  else if method == "hash" then "High"
  else if method == "redact" then "Medium"
  else if method == "mask" then "Low"
  else "None"

/-- The character for one decimal digit. -/
def digitCharL : Nat → Char
  | 0 => '0' | 1 => '1' | 2 => '2' | 3 => '3' | 4 => '4'
  | 5 => '5' | 6 => '6' | 7 => '7' | 8 => '8' | 9 => '9'
  | _ => '*'

/-- Decimal rendering of a natural number with an explicit fuel bound
(structural, so that it evaluates inside the kernel); models the
JavaScript number-to-string coercion in the template literal
`${match.index}`.  `natToDecimal` supplies fuel `n + 1`, which is shown
below never to run out. -/
def natToDecimalAux : Nat → Nat → List Char
  | 0, _ => []
  | fuel + 1, n =>
    if n < 10 then [digitCharL n]
    else natToDecimalAux fuel (n / 10) ++ [digitCharL (n % 10)]

/-- Decimal representation of a nonnegative integer, as JavaScript
string coercion produces it. -/
def natToDecimal (n : Nat) : List Char :=
  natToDecimalAux (n + 1) n

/-- Numeric value of one digit character (kept irreducible so that
unfolding the reader below stays cheap for the elaborator). -/
@[irreducible] def charDigitVal (c : Char) : Nat := c.toNat - 48

theorem charDigitVal_eq (c : Char) : charDigitVal c = c.toNat - 48 := by
  with_unfolding_all rfl

/-- Reads a decimal digit string back to a number (proof device used to
invert `natToDecimal`). -/
def decValAux : Nat → List Char → Nat
  | acc, [] => acc
  | acc, c :: rest => decValAux (10 * acc + charDigitVal c) rest

/-- Value of a digit string. -/
def decVal (l : List Char) : Nat := decValAux 0 l

/-- The dedup identity key of `deduplicateMatches`:
`` `${match.index}-${match.text}` ``. -/
def matchKey (m : PIIMatch) : List Char :=
  natToDecimal m.index ++ '-' :: m.text

/-- The `forEach` loop of `deduplicateMatches`: keep a match when its
identifier string has not been seen, otherwise drop it. -/
def dedupLoop : List (List Char) → List PIIMatch → List PIIMatch
  | _, [] => []
  | seen, m :: rest =>
    if seen.contains (matchKey m) then dedupLoop seen rest
    else m :: dedupLoop (matchKey m :: seen) rest

/-- The same traversal keyed by the pair `(startOffset, text)` itself,
as the specification words the identity key. -/
def pairNubLoop : List (Nat × List Char) → List PIIMatch → List PIIMatch
  | _, [] => []
  | seen, m :: rest =>
    if seen.contains (m.index, m.text) then pairNubLoop seen rest
    else m :: pairNubLoop ((m.index, m.text) :: seen) rest

/-- Source `deduplicateMatches()`, applied to an explicit
detection mapping: for every category, filter the matches through the
seen-set and set `count` to the surviving length. -/
def deduplicateMatches (dpii : List (String × PIIData)) : List (String × PIIData) :=
  dpii.map (fun e => (e.1, ⟨dedupLoop [] e.2.matches, (dedupLoop [] e.2.matches).length⟩))

/-- The chunk-building loop of `processLargeText`:
`for (let i = 0; i < inputText.length; i += chunkSize - overlap)` with
`end = Math.min(i + chunkSize, inputText.length)` and
`chunks.push({text: inputText.slice(i, end), offset: i})`.
Structural fuel: with the program's parameters the step is `9500 > 0`,
so `doc.length + 1` rounds of fuel are shown below never to run out. -/
def chunksFromFuel : Nat → List Char → Nat → Nat → Nat → List Chunk
  | 0, _, _, _, _ => []
  | fuel + 1, doc, chunkSize, step, i =>
    if i < doc.length then
      ⟨sliceL doc i (min (i + chunkSize) doc.length), i⟩
        :: chunksFromFuel fuel doc chunkSize step (i + step)
    else []

/-- The chunk list of `processLargeText` for a given window size and
overlap (the source fixes `chunkSize = 10000`, `overlap = 500`). -/
def makeChunks (doc : List Char) (chunkSize overlap : Nat) : List Chunk :=
  chunksFromFuel (doc.length + 1) doc chunkSize (chunkSize - overlap) 0

/-- The collection loop of `applyEncryption`: for every entry of
`detectedPII` in order, if its category is enabled push all its matches. -/
def collectEnabled (dpii : List (String × PIIData)) (enabled : List String) : List PIIMatch :=
  ((dpii.filter (fun e => enabled.contains e.1)).map (fun e => e.2.matches)).flatten

/-- One step of a stable insertion sort realising
`allMatches.sort((a, b) => b.index - a.index)`: an element moves in
front of the first strictly smaller index, so equal indices keep their
original relative order. -/
def insertDesc (m : PIIMatch) : List PIIMatch → List PIIMatch
  | [] => [m]
  | x :: xs => if x.index < m.index then m :: x :: xs else x :: insertDesc m xs

/-- Stable sort by descending `index`. -/
def sortDesc (l : List PIIMatch) : List PIIMatch :=
  l.foldl (fun acc m => insertDesc m acc) []

/-- One splice of the replacement loop:
`processedText.slice(0, start) + replacement + processedText.slice(end)`. -/
def spliceAt (text : List Char) (start finish : Nat) (repl : List Char) : List Char :=
  text.take start ++ repl ++ text.drop finish

/-- The `switch (method)` of `applyEncryption`, with the two
crypto-dependent branches parameterised by the hash and encryption
providers (`secureHash` / `secureEncrypt` in the source). -/
def replacementFor (method password : String) (hashFn : List Char → List Char)
    (encFn : List Char → String → List Char) (m : PIIMatch) : List Char :=
  if method == "mask" then List.replicate m.text.length '*'
  else if method == "hash" then ("[HASH:").data ++ hashFn m.text ++ ("]").data
  else if method == "encrypt" then encFn m.text password
  else if method == "redact" then ("[REDACTED]").data
  else m.text

/-- Source `applyEncryption(text, method, password)`, with the
detection state and enabled-category set passed explicitly.  Returns the
processed text together with the `processedData` record. -/
def applyEncryption (text : List Char) (method password : String)
    (dpii : List (String × PIIData)) (enabled : List String)
    (hashFn : List Char → List Char) (encFn : List Char → String → List Char) :
    List Char × ProcessedData :=
  let originalCount := (dpii.map (fun e => e.2.count)).sum
  let allMatches := sortDesc (collectEnabled dpii enabled)
  let final := allMatches.foldl (fun acc m =>
    (spliceAt acc.1 m.index (m.index + m.text.length)
        (replacementFor method password hashFn encFn m),
     acc.2 + 1)) (text, 0)
  (final.1, ⟨originalCount, final.2, method, getSecurityLevel method⟩)

/-- The early-return conditions of `processText()`, in source order. -/
inductive ProcError where
  | emptyInput
  | noPII
  | passwordMissing
  | passwordTooShort
  | noEnabled
deriving Repr, DecidableEq

/-- Which of the early returns the specification's error taxonomy calls
a `PolicyError` (encrypt without a password, or with a password shorter
than 8 characters). -/
def isPolicyError : ProcError → Bool
  | .passwordMissing => true
  | .passwordTooShort => true
  | _ => false

/-- The enabled-match count of `processText`:
`Array.from(this.enabledTypes).reduce((c, t) => c + (this.detectedPII[t]?.count || 0), 0)`. -/
def enabledCount (dpii : List (String × PIIData)) (enabled : List String) : Nat :=
  (enabled.map (fun t =>
    match dpii.find? (fun e => e.1 == t) with
    | some e => e.2.count
    | none => 0)).sum

/-- JavaScript whitespace for `String.prototype.trim` (the characters
that matter here are the ASCII ones). -/
def isJsWhitespace (c : Char) : Bool :=
  c == ' ' || c == '\t' || c == '\n' || c == '\r' || c == '\x0b' || c == '\x0c'

/-- JavaScript `s.trim()`: strip whitespace from both ends. -/
def trimL (s : List Char) : List Char :=
  ((s.dropWhile isJsWhitespace).reverse.dropWhile isJsWhitespace).reverse

/-- Source `processText()`: guard chain (empty input after
trimming, no detection data, missing password, short password, nothing
enabled) and then the call to `applyEncryption` on the trimmed input. -/
def processText (inputText : List Char) (method password : String)
    (dpii : List (String × PIIData)) (enabled : List String)
    (hashFn : List Char → List Char) (encFn : List Char → String → List Char) :
    Except ProcError (List Char × ProcessedData) :=
  let trimmed := trimL inputText
  if trimmed.isEmpty then .error .emptyInput
  else if dpii.length == 0 then .error .noPII
  else if method == "encrypt" && password == "" then .error .passwordMissing
  else if method == "encrypt" && password.length < 8 then .error .passwordTooShort
  else if enabledCount dpii enabled == 0 then .error .noEnabled
  else .ok (applyEncryption trimmed method password dpii enabled hashFn encFn)

/-- Character class `[A-Za-z0-9._%+-]` of the email pattern. -/
def isLocalChar (c : Char) : Bool :=
  c.isAlpha || c.isDigit || c == '.' || c == '_' || c == '%' || c == '+' || c == '-'

/-- JavaScript `\w` (word character), the class underlying `\b`. -/
def isWordChar (c : Char) : Bool :=
  c.isAlpha || c.isDigit || c == '_'

/-- Character class `[A-Za-z0-9.-]` of the email pattern. -/
def isDomainChar (c : Char) : Bool :=
  c.isAlpha || c.isDigit || c == '.' || c == '-'

/-- Character class `[A-Z|a-z]` of the email pattern (the literal bar is
part of the class as written in the source). -/
def isTldChar (c : Char) : Bool :=
  c.isAlpha || c == '|'

/-- Word-boundary test `\b` between two adjacent positions (`none` is
the start or end of the input). -/
def isBoundary (prev next : Option Char) : Bool :=
  (match prev with | none => false | some c => isWordChar c)
    != (match next with | none => false | some c => isWordChar c)

/-- Backtracking of the greedy `[A-Z|a-z]{2,}` followed by `\b`: given
the maximal run of TLD characters and the character following the run,
try the run lengths from `t` downwards (minimum 2) until the trailing
word boundary holds.  Mirrors the regex engine shrinking the greedy
quantifier. -/
def shrinkTld (run : List Char) (next : Option Char) : Nat → Option Nat
  | 0 => none
  | t + 1 =>
    if t + 1 < 2 then none
    else
      let follower := match run.get? (t + 1) with
        | some c => some c
        | none => next
      if isBoundary (run.get? t) follower then some (t + 1)
      else shrinkTld run next t

/-- Backtracking of the greedy `[A-Za-z0-9.-]+` followed by
`\.[A-Z|a-z]{2,}\b`, over the text `rest2` that follows the `@`: try
the prefix length `k` (largest first); the character at `k` must be the
literal dot, after which the TLD run is matched greedily and shrunk.
Returns the total number of characters of `rest2` consumed. -/
def domainSplit (rest2 : List Char) : Nat → Option Nat
  | 0 => none
  | k + 1 =>
    if rest2.get? (k + 1) == some '.' then
      let run := (rest2.drop (k + 2)).takeWhile isTldChar
      match shrinkTld run (rest2.get? (k + 2 + run.length)) run.length with
      | some t => some (k + 2 + t)
      | none => domainSplit rest2 k
    else domainSplit rest2 k

/-- Attempt of the email pattern at one position: `prev` is the
character immediately before the position, `s` the text from the
position on.  The leading `\b` and `[A-Za-z0-9._%+-]+` cannot shrink
(`@` is not a local character), so the match is the maximal local run,
the `@`, and the backtracked domain part.  Returns the matched text. -/
def emailMatchAt (prev : Option Char) (s : List Char) : Option (List Char) :=
  let r1 := s.takeWhile isLocalChar
  if r1.isEmpty then none
  else if !isBoundary prev s.head? then none
  else match s.drop r1.length with
    | '@' :: rest2 =>
      let r2 := rest2.takeWhile isDomainChar
      if r2.isEmpty then none
      else match domainSplit rest2 (r2.length - 1) with
        | some dlen => some (r1 ++ '@' :: rest2.take dlen)
        | none => none
    | _ => none

/-- The `while ((match = regex.exec(inputText)) !== null)` loop for the
email pattern: try every position left to right; after a match resume
at its end (`lastIndex`).  Structural fuel (`s.length` at the top call)
never runs out because every step consumes at least one character. -/
def emailScanFuel : Nat → Option Char → List Char → Nat → List (Nat × List Char)
  | 0, _, _, _ => []
  | fuel + 1, prev, s, pos =>
    match s with
    | [] => []
    | c :: rest =>
      match emailMatchAt prev (c :: rest) with
      | some tok =>
        (pos, tok) :: emailScanFuel fuel tok.getLast? (rest.drop (tok.length - 1)) (pos + tok.length)
      | none => emailScanFuel fuel (some c) rest (pos + 1)

/-- All email matches of a text with their indices, leftmost first. -/
def emailExec (text : List Char) : List (Nat × List Char) :=
  emailScanFuel text.length none text 0

/-- The candidate filter of the detection loops in `processStandardText`
and `processChunk`: 10 characters of context on each side, then the
structural-noise test.  (The email category is neither `contextAware`
nor `requiresLuhn`, so no further filter applies to it.) -/
def acceptCandidate (text : List Char) (p : Nat × List Char) : Option PIIMatch :=
  let before := sliceL text (p.1 - 10) p.1
  let after := sliceL text (p.1 + p.2.length) (p.1 + p.2.length + 10)
  if isJsonStructure before p.2 after then none
  else some ⟨p.2, p.1⟩

/-- One category of `processStandardText`, parameterised by the regex
engine `exec` (which returns `(match.index, match[0])` pairs): run the
exec loop and keep the candidates that pass the filter. -/
def detectWith (exec : List Char → List (Nat × List Char)) (text : List Char) :
    List PIIMatch :=
  (exec text).filterMap (acceptCandidate text)

/-- One category of `processChunk`: detect on the chunk text and add
`chunk.offset` to every index. -/
def processChunkWith (exec : List Char → List (Nat × List Char)) (c : Chunk) :
    List PIIMatch :=
  (detectWith exec c.text).map (fun m => ⟨m.text, m.index + c.offset⟩)

/-- One category of `processLargeText` end to end: chunk with window
10000 and overlap 500, accumulate the per-chunk matches in chunk order,
and run the dedup pass of `deduplicateMatches`. -/
def chunkedDetectWith (exec : List Char → List (Nat × List Char)) (doc : List Char) :
    List PIIMatch :=
  dedupLoop [] (((makeChunks doc 10000 500).map (processChunkWith exec)).flatten)

/-- The `(categoryId, startOffset, text)` triple of a match of the
`email` category, the view under which the specification compares
detection results. -/
def emailTriple (m : PIIMatch) : String × Nat × List Char :=
  ("email", m.index, m.text)

/-! ## Luhn validator (C4) -/

theorem luhnStep_eq (p i d : Nat) :
    luhnStep p i d = if i % 2 = p then (if 9 < 2 * d then 2 * d - 9 else 2 * d) else d := by
  simp [luhnStep]

theorem luhnLoop_eq (p : Nat) (ds : List Nat) : ∀ (i acc : Nat),
    luhnLoop p ds i acc = acc + ((ds.enumFrom i).map (fun q => luhnStep p q.1 q.2)).sum := by
  induction ds with
  | nil => intro i acc; simp [luhnLoop]
  | cons d rest ih =>
    intro i acc
    simp [luhnLoop, List.enumFrom, ih (i + 1), Nat.add_assoc]

theorem luhnSumSpec_eq (ds : List Nat) :
    luhnSumSpec ds = ((ds.enum).map (fun q => luhnStep (ds.length % 2) q.1 q.2)).sum := by
  unfold luhnSumSpec
  congr 1
  apply List.map_congr_left
  intro q _
  rw [luhnStep_eq]

/-- C4: `luhnCheck` strips non-digits, rejects digit counts outside
`[13,19]`, and otherwise accepts exactly when the parity-doubled
checksum is divisible by 10; the two reference card numbers behave as
stated. -/
theorem luhnCheck_spec :
    (∀ s : List Char, luhnCheck s = true ↔
      (13 ≤ (luhnDigits s).length ∧ (luhnDigits s).length ≤ 19 ∧
        luhnSumSpec (luhnDigits s) % 10 = 0)) ∧
    luhnCheck ("4111111111111111").data = true ∧
    luhnCheck ("4111111111111112").data = false := by
  refine ⟨?_, by decide, by decide⟩
  intro s
  simp only [luhnCheck]
  by_cases h13 : (luhnDigits s).length < 13
  · simp [h13]
  · by_cases h19 : (luhnDigits s).length > 19
    · simp [h13, h19]
    · simp only [h13, h19, decide_False, Bool.false_or, Bool.or_self, if_false,
        Bool.false_eq_true, decide_eq_true_eq]
      rw [luhnLoop_eq, luhnSumSpec_eq, List.enum]
      simp only [beq_iff_eq, Nat.zero_add]
      omega

/-! ## Structural-noise filter (C3) -/

/-- C3 counterexample: the text `zzz` is not in the structural token
list, yet in quote-colon context the filter still discards it — the
first branch of `isJsonStructure` ignores the token list, so the
"only if both conditions hold" claim is false. -/
theorem isJsonStructure_cex :
    isJsonStructure ("\"").data ("zzz").data ("\":").data = true ∧
    ((jsonStructureWords.map String.data).contains (toLowerL ("zzz").data)) = false := by
  constructor
  · decide
  · decide

/-- C3 amended: the structural-noise filter discards a candidate **iff**
it sits in quote-colon context; membership of the case-folded text in
the token list is redundant (the second branch is subsumed by the
first). -/
theorem isJsonStructure_iff_context (before m after : List Char) :
    isJsonStructure before m after =
      (endsWithL before ("\"").data && startsWithL after ("\":").data) := by
  unfold isJsonStructure
  cases hE : endsWithL before ("\"").data <;>
    cases hS : startsWithL after ("\":").data <;> simp [hE, hS]

/-! ## Deduplicator (C7) -/

theorem decValAux_append (xs ys : List Char) : ∀ acc,
    decValAux acc (xs ++ ys) = decValAux (decValAux acc xs) ys := by
  induction xs with
  | nil => intro acc; rfl
  | cons c rest ih =>
    intro acc
    show decValAux (10 * acc + charDigitVal c) (rest ++ ys)
      = decValAux (decValAux (10 * acc + charDigitVal c) rest) ys
    exact ih _

/-- With enough fuel, the decimal rendering consists of digit characters
and `decValAux` inverts it (reading the digits restores the number). -/
theorem natToDecimalAux_spec : ∀ (fuel n : Nat), n < fuel →
    (∀ c ∈ natToDecimalAux fuel n, 48 ≤ c.toNat ∧ c.toNat ≤ 57) ∧
    (∀ acc, decValAux acc (natToDecimalAux fuel n) =
      acc * 10 ^ (natToDecimalAux fuel n).length + n) := by
  intro fuel
  induction fuel with
  | zero => intro n h; omega
  | succ fuel ih =>
    intro n hn
    by_cases h10 : n < 10
    · have hval : charDigitVal (digitCharL n) = n := by
        rw [charDigitVal_eq]
        interval_cases n <;> decide
      have hrange : 48 ≤ (digitCharL n).toNat ∧ (digitCharL n).toNat ≤ 57 := by
        interval_cases n <;> decide
      constructor
      · intro c hc
        simp only [natToDecimalAux, if_pos h10, List.mem_singleton] at hc
        subst hc
        exact hrange
      · intro acc
        simp only [natToDecimalAux, if_pos h10, decValAux, hval, List.length_singleton]
        ring_nf
    · have hdiv : n / 10 < fuel := by
        have h1 : n / 10 < n := Nat.div_lt_self (by omega) (by omega)
        omega
      have hmod : n % 10 < 10 := Nat.mod_lt _ (by omega)
      have hval : charDigitVal (digitCharL (n % 10)) = n % 10 := by
        rw [charDigitVal_eq]
        set m := n % 10 with hm
        interval_cases m <;> decide
      have hrange : 48 ≤ (digitCharL (n % 10)).toNat ∧ (digitCharL (n % 10)).toNat ≤ 57 := by
        set m := n % 10 with hm
        interval_cases m <;> decide
      obtain ⟨ihd, ihv⟩ := ih (n / 10) hdiv
      constructor
      · intro c hc
        simp only [natToDecimalAux, if_neg h10, List.mem_append, List.mem_singleton] at hc
        rcases hc with hc | hc
        · exact ihd c hc
        · subst hc; exact hrange
      · intro acc
        simp only [natToDecimalAux, if_neg h10, decValAux_append, ihv acc, decValAux,
          hval, List.length_append, List.length_singleton]
        have hdm : 10 * (n / 10) + n % 10 = n := by omega
        calc 10 * (acc * 10 ^ (natToDecimalAux fuel (n / 10)).length + n / 10) + n % 10
            = acc * (10 ^ (natToDecimalAux fuel (n / 10)).length * 10)
              + (10 * (n / 10) + n % 10) := by ring
          _ = acc * 10 ^ ((natToDecimalAux fuel (n / 10)).length + 1) + n := by
              rw [hdm, pow_succ]

theorem decVal_natToDecimal (n : Nat) : decVal (natToDecimal n) = n := by
  have h := (natToDecimalAux_spec (n + 1) n (Nat.lt_succ_self n)).2 0
  simpa [decVal, natToDecimal] using h

theorem natToDecimal_inj {a b : Nat} (h : natToDecimal a = natToDecimal b) : a = b := by
  have := decVal_natToDecimal a
  rw [h, decVal_natToDecimal] at this
  omega

theorem dash_not_mem_natToDecimal (n : Nat) : '-' ∉ natToDecimal n := by
  intro hmem
  have h := (natToDecimalAux_spec (n + 1) n (Nat.lt_succ_self n)).1 '-' hmem
  have h45 : ('-').toNat = 45 := rfl
  omega

/-- Splitting an equality of two lists at the first unambiguous
delimiter occurrence. -/
theorem append_dash_inj : ∀ (xs ys t1 t2 : List Char),
    xs ++ '-' :: t1 = ys ++ '-' :: t2 → '-' ∉ xs → '-' ∉ ys →
    xs = ys ∧ t1 = t2 := by
  intro xs
  induction xs with
  | nil =>
    intro ys t1 t2 heq _ hy
    cases ys with
    | nil => simpa using heq
    | cons c ys' =>
      simp only [List.nil_append, List.cons_append, List.cons.injEq] at heq
      exfalso
      apply hy
      rw [heq.1]
      exact List.mem_cons_self _ _
  | cons c xs' ih =>
    intro ys t1 t2 heq hx hy
    cases ys with
    | nil =>
      simp only [List.cons_append, List.nil_append, List.cons.injEq] at heq
      exfalso
      apply hx
      rw [← heq.1]
      exact List.mem_cons_self _ _
    | cons d ys' =>
      simp only [List.cons_append, List.cons.injEq] at heq
      have hx' : '-' ∉ xs' := fun h => hx (List.mem_cons_of_mem c h)
      have hy' : '-' ∉ ys' := fun h => hy (List.mem_cons_of_mem d h)
      obtain ⟨h1, h2⟩ := ih ys' t1 t2 heq.2 hx' hy'
      exact ⟨by rw [heq.1, h1], h2⟩

/-- The dedup identifier is collision-free: equal keys force equal
`(startOffset, text)` pairs. -/
theorem matchKey_inj {a b : PIIMatch} (h : matchKey a = matchKey b) :
    a.index = b.index ∧ a.text = b.text := by
  unfold matchKey at h
  obtain ⟨h1, h2⟩ := append_dash_inj _ _ _ _ h
    (dash_not_mem_natToDecimal a.index) (dash_not_mem_natToDecimal b.index)
  exact ⟨natToDecimal_inj h1, h2⟩

/-- The dedup key as a function of the identity pair. -/
def keyOfPair (p : Nat × List Char) : List Char :=
  natToDecimal p.1 ++ '-' :: p.2

theorem matchKey_eq_keyOfPair (m : PIIMatch) :
    matchKey m = keyOfPair (m.index, m.text) := rfl

theorem keyOfPair_inj {p q : Nat × List Char} (h : keyOfPair p = keyOfPair q) : p = q := by
  unfold keyOfPair at h
  obtain ⟨h1, h2⟩ := append_dash_inj _ _ _ _ h
    (dash_not_mem_natToDecimal p.1) (dash_not_mem_natToDecimal q.1)
  exact Prod.ext (natToDecimal_inj h1) h2

theorem contains_key_iff (seen : List (Nat × List Char)) (p : Nat × List Char) :
    (seen.map keyOfPair).contains (keyOfPair p) = seen.contains p := by
  simp only [List.contains, List.elem_eq_mem, decide_eq_decide, List.mem_map]
  constructor
  · rintro ⟨q, hq, hkey⟩
    rwa [← keyOfPair_inj hkey]
  · intro hp
    exact ⟨p, hp, rfl⟩

/-- The string-keyed seen-set of the source behaves exactly like a
pair-keyed seen-set. -/
theorem dedupLoop_eq_pairNub : ∀ (ms : List PIIMatch) (seen : List (Nat × List Char)),
    dedupLoop (seen.map keyOfPair) ms = pairNubLoop seen ms := by
  intro ms
  induction ms with
  | nil => intro seen; rfl
  | cons m rest ih =>
    intro seen
    simp only [dedupLoop, pairNubLoop, matchKey_eq_keyOfPair, contains_key_iff]
    cases hc : seen.contains (m.index, m.text) with
    | true => simp only [if_true, ih seen]
    | false =>
      simp only [Bool.false_eq_true, if_false]
      have : keyOfPair (m.index, m.text) :: seen.map keyOfPair
          = ((m.index, m.text) :: seen).map keyOfPair := rfl
      rw [this, ih ((m.index, m.text) :: seen)]

theorem dedupLoop_sublist : ∀ (ms : List PIIMatch) (seen : List (List Char)),
    (dedupLoop seen ms).Sublist ms := by
  intro ms
  induction ms with
  | nil => intro seen; simp [dedupLoop]
  | cons m rest ih =>
    intro seen
    simp only [dedupLoop]
    split
    · exact (ih seen).cons m
    · exact (ih (matchKey m :: seen)).cons₂ m

/-- C7: on every category the deduplicator keeps a match exactly when no
earlier match of that category has the identical `(startOffset, text)`
pair (`pairNubLoop`, the pair-keyed traversal, is the claim's wording;
key-string collisions cannot merge distinct pairs); survivors keep
first-seen order (they form a sublist of the input), and every stored
`count` equals the length of the stored match list. -/
theorem deduplicateMatches_spec (dpii : List (String × PIIData)) :
    deduplicateMatches dpii =
      dpii.map (fun e =>
        (e.1, ⟨pairNubLoop [] e.2.matches, (pairNubLoop [] e.2.matches).length⟩)) ∧
    (∀ e ∈ deduplicateMatches dpii, e.2.count = e.2.matches.length) ∧
    (∀ e ∈ dpii, (dedupLoop [] e.2.matches).Sublist e.2.matches) := by
  refine ⟨?_, ?_, ?_⟩
  · unfold deduplicateMatches
    apply List.map_congr_left
    intro e _
    have h := dedupLoop_eq_pairNub e.2.matches []
    simp only [List.map_nil] at h
    rw [h]
  · intro e he
    unfold deduplicateMatches at he
    obtain ⟨e₀, _, rfl⟩ := List.mem_map.mp he
    rfl
  · intro e _
    exact dedupLoop_sublist e.2.matches []

/-! ## Chunker (C9) -/

theorem sliceL_eq_take_drop (l : List Char) (a b : Nat) :
    sliceL l a b = (l.drop a).take (b - a) := by
  unfold sliceL
  rw [List.drop_take]

theorem length_sliceL (l : List Char) (a b : Nat) :
    (sliceL l a b).length = min b l.length - a := by
  unfold sliceL
  simp [List.length_drop, List.length_take]

/-- A window of a window of the document is a window of the document. -/
theorem sliceL_sliceL (l : List Char) (o e i L : Nat) (h : i + L ≤ e - o) :
    sliceL (sliceL l o e) i (i + L) = sliceL l (o + i) (o + i + L) := by
  rw [sliceL_eq_take_drop, sliceL_eq_take_drop, sliceL_eq_take_drop,
    List.drop_take, List.drop_drop]
  have h1 : i + L - i = L := by omega
  have h2 : o + i + L - (o + i) = L := by omega
  rw [h1, h2, List.take_take]
  have h3 : min L (e - o - i) = L := by omega
  rw [h3]

theorem mem_chunksFromFuel_shape : ∀ (fuel : Nat) (doc : List Char) (cs step i : Nat)
    (c : Chunk), c ∈ chunksFromFuel fuel doc cs step i →
    c.text = sliceL doc c.offset (min (c.offset + cs) doc.length) ∧
    c.offset < doc.length := by
  intro fuel
  induction fuel with
  | zero => intro doc cs step i c hc; simp [chunksFromFuel] at hc
  | succ fuel ih =>
    intro doc cs step i c hc
    simp only [chunksFromFuel] at hc
    by_cases hi : i < doc.length
    · rw [if_pos hi] at hc
      rcases List.mem_cons.mp hc with hc | hc
      · subst hc; exact ⟨rfl, hi⟩
      · exact ih doc cs step (i + step) c hc
    · rw [if_neg hi] at hc
      cases hc

theorem chunksFromFuel_offsets : ∀ (fuel : Nat) (doc : List Char) (cs step i k : Nat)
    (c : Chunk), (chunksFromFuel fuel doc cs step i)[k]? = some c →
    c.offset = i + k * step := by
  intro fuel
  induction fuel with
  | zero => intro doc cs step i k c hc; simp [chunksFromFuel] at hc
  | succ fuel ih =>
    intro doc cs step i k c hc
    simp only [chunksFromFuel] at hc
    by_cases hi : i < doc.length
    · rw [if_pos hi] at hc
      cases k with
      | zero =>
        simp only [List.getElem?_cons_zero, Option.some.injEq] at hc
        subst hc
        simp
      | succ k =>
        simp only [List.getElem?_cons_succ] at hc
        have h1 := ih doc cs step (i + step) k c hc
        have h2 : (k + 1) * step = k * step + step := by ring
        omega
    · rw [if_neg hi] at hc
      simp at hc

theorem mem_chunksFromFuel_of_offset : ∀ (k fuel : Nat) (doc : List Char) (cs step i : Nat),
    0 < step → doc.length - i < fuel → i + k * step < doc.length →
    (⟨sliceL doc (i + k * step) (min (i + k * step + cs) doc.length), i + k * step⟩ : Chunk) ∈
      chunksFromFuel fuel doc cs step i := by
  intro k
  induction k with
  | zero =>
    intro fuel doc cs step i hstep hfuel hlt
    cases fuel with
    | zero => omega
    | succ fuel =>
      have hi : i < doc.length := by omega
      have h0 : i + 0 * step = i := by ring
      rw [h0]
      simp only [chunksFromFuel, if_pos hi]
      exact List.mem_cons_self _ _
  | succ k ih =>
    intro fuel doc cs step i hstep hfuel hlt
    cases fuel with
    | zero => omega
    | succ fuel =>
      have hi : i < doc.length := by
        have : i ≤ i + (k + 1) * step := Nat.le_add_right _ _
        omega
      simp only [chunksFromFuel, if_pos hi]
      apply List.mem_cons_of_mem
      have h1 : i + (k + 1) * step = (i + step) + k * step := by ring
      rw [h1]
      apply ih fuel doc cs step (i + step) hstep (by omega) (by omega)

/-- C9: with window 10000 and overlap 500, the chunk at position `k`
has origin offset exactly `k * 9500` (windows advance by
`windowSize - overlap`); every chunk is the document window starting at
its offset, truncated at the document end; and every nonempty substring
shorter than the overlap width lies entirely inside some window. -/
theorem makeChunks_spec (doc : List Char) :
    (∀ (k : Nat) (c : Chunk), (makeChunks doc 10000 500)[k]? = some c →
      c.offset = k * 9500) ∧
    (∀ c ∈ makeChunks doc 10000 500,
      c.text = sliceL doc c.offset (min (c.offset + 10000) doc.length) ∧
      c.text.length = min 10000 (doc.length - c.offset) ∧
      c.offset + c.text.length ≤ doc.length) ∧
    (∀ s L : Nat, 0 < L → L < 500 → s + L ≤ doc.length →
      ∃ c ∈ makeChunks doc 10000 500, c.offset ≤ s ∧ s + L ≤ c.offset + c.text.length) := by
  refine ⟨?_, ?_, ?_⟩
  · intro k c hc
    have h := chunksFromFuel_offsets (doc.length + 1) doc 10000 9500 0 k c hc
    omega
  · intro c hc
    obtain ⟨htext, hoff⟩ := mem_chunksFromFuel_shape (doc.length + 1) doc 10000 9500 0 c hc
    refine ⟨htext, ?_, ?_⟩
    · rw [htext, length_sliceL]
      omega
    · rw [htext, length_sliceL]
      omega
  · intro s L hL h500 hsL
    have hdm := Nat.div_add_mod s 9500
    have hmod : s % 9500 < 9500 := Nat.mod_lt _ (by omega)
    set k := s / 9500 with hk
    have hoff_le : k * 9500 ≤ s := by omega
    have hs_lt : s < k * 9500 + 9500 := by omega
    have hlt : 0 + k * 9500 < doc.length := by omega
    refine ⟨⟨sliceL doc (0 + k * 9500) (min (0 + k * 9500 + 10000) doc.length), 0 + k * 9500⟩,
      mem_chunksFromFuel_of_offset k (doc.length + 1) doc 10000 9500 0 (by omega) (by omega) hlt,
      by simpa using hoff_le, ?_⟩
    simp only [length_sliceL]
    omega

/-- Witness for C9 at a concrete document: a three-character document
is a single window containing its one-character substrings. -/
theorem makeChunks_spec_witness :
    ∃ c ∈ makeChunks (List.replicate 3 'a') 10000 500,
      c.offset ≤ 1 ∧ 1 + 1 ≤ c.offset + c.text.length :=
  (makeChunks_spec (List.replicate 3 'a')).2.2 1 1 (by decide) (by decide) (by decide)

/-! ## Transformer (C5, C10) -/

theorem insertDesc_length (m : PIIMatch) : ∀ l : List PIIMatch,
    (insertDesc m l).length = l.length + 1 := by
  intro l
  induction l with
  | nil => rfl
  | cons x xs ih =>
    simp only [insertDesc]
    split
    · simp
    · simp [ih]

theorem sortDesc_length_aux : ∀ (l acc : List PIIMatch),
    (l.foldl (fun acc m => insertDesc m acc) acc).length = acc.length + l.length := by
  intro l
  induction l with
  | nil => intro acc; simp
  | cons m rest ih =>
    intro acc
    simp only [List.foldl_cons, ih, insertDesc_length, List.length_cons]
    omega

theorem sortDesc_length (l : List PIIMatch) : (sortDesc l).length = l.length := by
  unfold sortDesc
  rw [sortDesc_length_aux]
  simp

theorem mem_insertDesc (x m : PIIMatch) : ∀ l : List PIIMatch,
    x ∈ insertDesc m l ↔ x = m ∨ x ∈ l := by
  intro l
  induction l with
  | nil => simp [insertDesc]
  | cons y ys ih =>
    simp only [insertDesc]
    split
    · simp [List.mem_cons]
    · simp only [List.mem_cons, ih]
      tauto

theorem mem_sortDesc_aux : ∀ (l acc : List PIIMatch) (x : PIIMatch),
    x ∈ l.foldl (fun acc m => insertDesc m acc) acc ↔ x ∈ acc ∨ x ∈ l := by
  intro l
  induction l with
  | nil => intro acc x; simp
  | cons m rest ih =>
    intro acc x
    simp only [List.foldl_cons, ih, mem_insertDesc, List.mem_cons]
    tauto

theorem mem_sortDesc (x : PIIMatch) (l : List PIIMatch) :
    x ∈ sortDesc l ↔ x ∈ l := by
  unfold sortDesc
  rw [mem_sortDesc_aux]
  simp

/-- The replacement loop splits into the rewritten text and the counter. -/
theorem applyFold_split (f : List Char → PIIMatch → List Char) :
    ∀ (l : List PIIMatch) (t : List Char) (n : Nat),
    (l.foldl (fun acc m => (f acc.1 m, acc.2 + 1)) (t, n))
      = (l.foldl f t, n + l.length) := by
  intro l
  induction l with
  | nil => intro t n; simp
  | cons m rest ih =>
    intro t n
    simp only [List.foldl_cons, ih, List.length_cons, Prod.mk.injEq]
    exact ⟨trivial, by omega⟩

theorem replacementFor_redact (password : String) (hashFn : List Char → List Char)
    (encFn : List Char → String → List Char) (m : PIIMatch) :
    replacementFor "redact" password hashFn encFn m = ("[REDACTED]").data := rfl

/-- C5: processing with `method = redact` splices the fixed literal
`[REDACTED]` over the enabled matches in descending-offset order;
`processedCount` is the number of matches of enabled categories and
`originalCount` is the total number of detected matches over all
categories, enabled or not. -/
theorem applyEncryption_redact_spec (doc : List Char) (password : String)
    (dpii : List (String × PIIData)) (enabled : List String)
    (hashFn : List Char → List Char) (encFn : List Char → String → List Char)
    (hwf : ∀ e ∈ dpii, e.2.count = e.2.matches.length) :
    (applyEncryption doc "redact" password dpii enabled hashFn encFn).2.processedCount
      = (collectEnabled dpii enabled).length ∧
    (applyEncryption doc "redact" password dpii enabled hashFn encFn).2.originalCount
      = (dpii.map (fun e => e.2.matches.length)).sum ∧
    (applyEncryption doc "redact" password dpii enabled hashFn encFn).1
      = (sortDesc (collectEnabled dpii enabled)).foldl
          (fun t m => spliceAt t m.index (m.index + m.text.length) (("[REDACTED]").data))
          doc := by
  simp only [applyEncryption]
  rw [applyFold_split (fun t m => spliceAt t m.index (m.index + m.text.length)
        (replacementFor "redact" password hashFn encFn m))]
  refine ⟨by simp [sortDesc_length], ?_, rfl⟩
  congr 1
  apply List.map_congr_left
  intro e he
  exact hwf e he

/-- Witness for C5: one enabled email match in a five-character document. -/
theorem applyEncryption_redact_witness :
    (applyEncryption ("hello").data "redact" "" [("email", ⟨[⟨("ell").data, 1⟩], 1⟩)]
        ["email"] (fun _ => []) (fun _ _ => [])).2.processedCount
      = (collectEnabled [("email", ⟨[⟨("ell").data, 1⟩], 1⟩)] ["email"]).length ∧
    (applyEncryption ("hello").data "redact" "" [("email", ⟨[⟨("ell").data, 1⟩], 1⟩)]
        ["email"] (fun _ => []) (fun _ _ => [])).2.originalCount
      = ([("email", (⟨[⟨("ell").data, 1⟩], 1⟩ : PIIData))].map
          (fun e => e.2.matches.length)).sum ∧
    (applyEncryption ("hello").data "redact" "" [("email", ⟨[⟨("ell").data, 1⟩], 1⟩)]
        ["email"] (fun _ => []) (fun _ _ => [])).1
      = (sortDesc (collectEnabled [("email", ⟨[⟨("ell").data, 1⟩], 1⟩)] ["email"])).foldl
          (fun t m => spliceAt t m.index (m.index + m.text.length) (("[REDACTED]").data))
          (("hello").data) :=
  applyEncryption_redact_spec ("hello").data "" _ _ _ _ (by decide)

/-- Replacing a span by exactly the characters it already contains is
the identity. -/
theorem spliceAt_self (doc : List Char) (s L : Nat) :
    spliceAt doc s (s + L) (sliceL doc s (s + L)) = doc := by
  unfold spliceAt
  rw [sliceL_eq_take_drop]
  have h1 : s + L - s = L := by omega
  have h2 : doc.drop (s + L) = (doc.drop s).drop L := (List.drop_drop L s doc).symm
  rw [h1, h2, List.append_assoc, List.take_append_drop, List.take_append_drop]

theorem foldl_splice_id (doc : List Char) (repl : PIIMatch → List Char) :
    ∀ l : List PIIMatch,
    (∀ m ∈ l, repl m = sliceL doc m.index (m.index + m.text.length)) →
    l.foldl (fun t m => spliceAt t m.index (m.index + m.text.length) (repl m)) doc = doc := by
  intro l
  induction l with
  | nil => intro _; rfl
  | cons m rest ih =>
    intro h
    simp only [List.foldl_cons]
    rw [h m (List.mem_cons_self _ _), spliceAt_self]
    exact ih (fun x hx => h x (List.mem_cons_of_mem _ hx))

theorem replacementFor_default (method password : String)
    (hashFn : List Char → List Char) (encFn : List Char → String → List Char) (m : PIIMatch)
    (h1 : method ≠ "mask") (h2 : method ≠ "hash") (h3 : method ≠ "encrypt")
    (h4 : method ≠ "redact") :
    replacementFor method password hashFn encFn m = m.text := by
  have hb1 : (method == "mask") = false := by rw [beq_eq_false_iff_ne]; exact h1
  have hb2 : (method == "hash") = false := by rw [beq_eq_false_iff_ne]; exact h2
  have hb3 : (method == "encrypt") = false := by rw [beq_eq_false_iff_ne]; exact h3
  have hb4 : (method == "redact") = false := by rw [beq_eq_false_iff_ne]; exact h4
  simp [replacementFor, hb1, hb2, hb3, hb4]

theorem getSecurityLevel_default (method : String)
    (h1 : method ≠ "mask") (h2 : method ≠ "hash") (h3 : method ≠ "encrypt")
    (h4 : method ≠ "redact") :
    getSecurityLevel method = "None" := by
  have hb1 : (method == "mask") = false := by rw [beq_eq_false_iff_ne]; exact h1
  have hb2 : (method == "hash") = false := by rw [beq_eq_false_iff_ne]; exact h2
  have hb3 : (method == "encrypt") = false := by rw [beq_eq_false_iff_ne]; exact h3
  have hb4 : (method == "redact") = false := by rw [beq_eq_false_iff_ne]; exact h4
  simp [getSecurityLevel, hb1, hb2, hb3, hb4]

/-- C10: for a method outside the four known ones the switch falls into
its default branch and splices each match's own text back in, so (when
the detection state satisfies the offset invariant) the text is
returned unchanged, while `processedCount` still counts every enabled
match and `securityLevel` is the literal `"None"`. -/
theorem applyEncryption_unknown_method_spec (doc : List Char) (method password : String)
    (dpii : List (String × PIIData)) (enabled : List String)
    (hashFn : List Char → List Char) (encFn : List Char → String → List Char)
    (h1 : method ≠ "mask") (h2 : method ≠ "hash") (h3 : method ≠ "encrypt")
    (h4 : method ≠ "redact")
    (hinv : ∀ m ∈ collectEnabled dpii enabled,
      sliceL doc m.index (m.index + m.text.length) = m.text) :
    (applyEncryption doc method password dpii enabled hashFn encFn).1 = doc ∧
    (applyEncryption doc method password dpii enabled hashFn encFn).2.processedCount
      = (collectEnabled dpii enabled).length ∧
    (applyEncryption doc method password dpii enabled hashFn encFn).2.securityLevel
      = "None" := by
  simp only [applyEncryption]
  rw [applyFold_split (fun t m => spliceAt t m.index (m.index + m.text.length)
        (replacementFor method password hashFn encFn m))]
  refine ⟨?_, by simp [sortDesc_length], ?_⟩
  · apply foldl_splice_id doc (replacementFor method password hashFn encFn)
    intro m hm
    rw [replacementFor_default method password hashFn encFn m h1 h2 h3 h4]
    exact (hinv m ((mem_sortDesc m _).mp hm)).symm
  · exact getSecurityLevel_default method h1 h2 h3 h4

/-- Witness for C10: method `"foo"` on a five-character document with
one enabled match satisfying the offset invariant. -/
theorem applyEncryption_unknown_method_witness :
    (applyEncryption ("hello").data "foo" "" [("email", ⟨[⟨("ell").data, 1⟩], 1⟩)]
        ["email"] (fun _ => []) (fun _ _ => [])).1 = ("hello").data ∧
    (applyEncryption ("hello").data "foo" "" [("email", ⟨[⟨("ell").data, 1⟩], 1⟩)]
        ["email"] (fun _ => []) (fun _ _ => [])).2.processedCount
      = (collectEnabled [("email", ⟨[⟨("ell").data, 1⟩], 1⟩)] ["email"]).length ∧
    (applyEncryption ("hello").data "foo" "" [("email", ⟨[⟨("ell").data, 1⟩], 1⟩)]
        ["email"] (fun _ => []) (fun _ _ => [])).2.securityLevel = "None" :=
  applyEncryption_unknown_method_spec ("hello").data "foo" "" _ _ _ _
    (by decide) (by decide) (by decide) (by decide) (by decide)

/-! ## processText guards (C6) -/

/-- C6 counterexample: on the empty document with a 7-character password
the first guard of `processText` fires, so the raised error is the
empty-input error, not a policy error — the claim's quantification over
*every* document fails. -/
theorem processText_policy_cex :
    processText [] "encrypt" "1234567" [("email", ⟨[], 0⟩)] ["email"]
        (fun _ => []) (fun _ _ => []) = Except.error ProcError.emptyInput ∧
    isPolicyError ProcError.emptyInput = false := by
  constructor
  · rfl
  · rfl

/-- C6 amended: whenever the trimmed document is nonempty and some
detection data exists, requesting `encrypt` with a password shorter
than 8 characters (the empty password included) makes `processText`
return a policy error before `applyEncryption` is ever invoked: the
result is an error and no spliced text is produced. -/
theorem processText_policy_spec (inputText : List Char) (password : String)
    (dpii : List (String × PIIData)) (enabled : List String)
    (hashFn : List Char → List Char) (encFn : List Char → String → List Char)
    (hne : (trimL inputText).isEmpty = false) (hd : dpii ≠ [])
    (hp : password.length < 8) :
    ∃ e, processText inputText "encrypt" password dpii enabled hashFn encFn
        = Except.error e ∧ isPolicyError e = true := by
  have hlen : (dpii.length == 0) = false := by
    simp [List.length_eq_zero, hd]
  simp only [processText, hne, hlen, Bool.false_eq_true, if_false]
  by_cases hpw : password = ""
  · refine ⟨ProcError.passwordMissing, ?_, rfl⟩
    have hb : (password == "") = true := by rw [beq_iff_eq]; exact hpw
    simp [hb]
  · refine ⟨ProcError.passwordTooShort, ?_, rfl⟩
    have hb : (password == "") = false := by rw [beq_eq_false_iff_ne]; exact hpw
    have hlt : decide (password.length < 8) = true := decide_eq_true hp
    simp [hb, hlt]

/-- Witness for C6 (amended): a one-character document, one detection
entry, and the 7-character password. -/
theorem processText_policy_witness :
    ∃ e, processText ("a").data "encrypt" "1234567" [("email", ⟨[], 0⟩)] ["email"]
        (fun _ => []) (fun _ _ => []) = Except.error e ∧ isPolicyError e = true :=
  processText_policy_spec ("a").data "1234567" [("email", ⟨[], 0⟩)] ["email"]
    (fun _ => []) (fun _ _ => []) (by decide) (by decide) (by decide)

/-! ## Detection offset invariant (C1) -/

theorem acceptCandidate_shape (text : List Char) (p : Nat × List Char) (m : PIIMatch)
    (h : acceptCandidate text p = some m) : m = ⟨p.2, p.1⟩ := by
  simp only [acceptCandidate] at h
  split at h
  · cases h
  · exact ((Option.some.injEq _ _).mp h).symm

/-- Single-pass part of C1: the filter only discards candidates, so
every accepted match inherits the exec contract on the scanned text. -/
theorem detectWith_substring (exec : List Char → List (Nat × List Char))
    (hexec : ∀ (text : List Char) (i : Nat) (tok : List Char), (i, tok) ∈ exec text →
      i + tok.length ≤ text.length ∧ sliceL text i (i + tok.length) = tok)
    (text : List Char) (m : PIIMatch) (hm : m ∈ detectWith exec text) :
    m.index + m.text.length ≤ text.length ∧
    sliceL text m.index (m.index + m.text.length) = m.text := by
  unfold detectWith at hm
  obtain ⟨p, hp, hacc⟩ := List.mem_filterMap.mp hm
  have hshape := acceptCandidate_shape text p m hacc
  subst hshape
  exact hexec text p.1 p.2 (by simpa using hp)

theorem sliceL_drop (l : List Char) (d a b : Nat) :
    sliceL (l.drop d) a b = sliceL l (d + a) (d + b) := by
  rw [sliceL_eq_take_drop, sliceL_eq_take_drop, List.drop_drop]
  congr 1
  omega

/-- C1: every match accepted into the detection result — by the
single-pass detector or by the chunked detector, which adds the chunk's
origin offset — denotes exactly the substring of the document at its
recorded offset (the regex engine is abstracted by the `exec` contract
that `match[0]` is the substring of the scanned text at `match.index`;
`emailExec_contract` below discharges it for the email scanner). -/
theorem accepted_match_substring (exec : List Char → List (Nat × List Char))
    (hexec : ∀ (text : List Char) (i : Nat) (tok : List Char), (i, tok) ∈ exec text →
      i + tok.length ≤ text.length ∧ sliceL text i (i + tok.length) = tok)
    (doc : List Char) (m : PIIMatch)
    (hm : m ∈ detectWith exec doc ∨ m ∈ chunkedDetectWith exec doc) :
    m.index + m.text.length ≤ doc.length ∧
    sliceL doc m.index (m.index + m.text.length) = m.text := by
  rcases hm with hm | hm
  · exact detectWith_substring exec hexec doc m hm
  · unfold chunkedDetectWith at hm
    have hm' := (dedupLoop_sublist _ []).subset hm
    obtain ⟨l, hl, hml⟩ := List.mem_flatten.mp hm'
    obtain ⟨c, hc, rfl⟩ := List.mem_map.mp hl
    unfold processChunkWith at hml
    obtain ⟨m', hm'mem, rfl⟩ := List.mem_map.mp hml
    obtain ⟨hlen, hslice⟩ := detectWith_substring exec hexec c.text m' hm'mem
    obtain ⟨htext, hoff⟩ := mem_chunksFromFuel_shape (doc.length + 1) doc 10000 9500 0 c hc
    have hclen : c.text.length = min (min (c.offset + 10000) doc.length) doc.length - c.offset := by
      rw [htext, length_sliceL]
    rw [htext] at hslice
    have hbound : m'.index + m'.text.length ≤ min (c.offset + 10000) doc.length - c.offset := by
      omega
    rw [sliceL_sliceL doc c.offset (min (c.offset + 10000) doc.length)
      m'.index m'.text.length hbound] at hslice
    constructor
    · simp only []
      omega
    · simp only []
      have hcomm : m'.index + c.offset = c.offset + m'.index := by omega
      rw [hcomm]
      exact hslice

/-! ## The email scanner fulfils the exec contract -/

theorem shrinkTld_le (run : List Char) (next : Option Char) : ∀ (t0 t : Nat),
    shrinkTld run next t0 = some t → t ≤ t0 := by
  intro t0
  induction t0 with
  | zero => intro t h; cases h
  | succ t0 ih =>
    intro t h
    simp only [shrinkTld] at h
    split at h
    · cases h
    · split at h
      · have := (Option.some.injEq _ _).mp h
        omega
      · have := ih t h
        omega

theorem domainSplit_le (rest2 : List Char) : ∀ (k dlen : Nat),
    domainSplit rest2 k = some dlen → 1 ≤ dlen ∧ dlen ≤ rest2.length := by
  intro k
  induction k with
  | zero => intro dlen h; cases h
  | succ k ih =>
    intro dlen h
    simp only [domainSplit] at h
    split at h
    next hdot =>
      split at h
      next t hsh =>
        have h1 := (Option.some.injEq _ _).mp h
        have h2 := shrinkTld_le _ _ _ _ hsh
        have h3 : ((rest2.drop (k + 2)).takeWhile isTldChar).length ≤ rest2.length - (k + 2) :=
          le_trans (List.takeWhile_sublist _).length_le (by rw [List.length_drop])
        have h4 : k + 1 < rest2.length := by
          by_contra hcon
          have hnone : rest2.get? (k + 1) = none := List.get?_eq_none.mpr (by omega)
          rw [hnone] at hdot
          simp at hdot
        omega
      next => exact ih dlen h
    next => exact ih dlen h

/-- The prefix returned by `takeWhile` is recovered by `take` of its
length. -/
theorem take_length_takeWhile (p : Char → Bool) : ∀ l : List Char,
    l.take (l.takeWhile p).length = l.takeWhile p := by
  intro l
  induction l with
  | nil => rfl
  | cons c rest ih =>
    rw [List.takeWhile_cons]
    split
    · simp only [List.length_cons, List.take_succ_cons, ih]
    · rfl

theorem emailMatchAt_shape (prev : Option Char) (s tok : List Char)
    (h : emailMatchAt prev s = some tok) :
    tok ≠ [] ∧ tok.length ≤ s.length ∧ tok = s.take tok.length := by
  simp only [emailMatchAt] at h
  split at h
  · cases h
  next hr1 =>
  split at h
  · cases h
  next hb =>
  split at h
  case _ rest2 heq =>
    split at h
    · cases h
    next hr2 =>
    split at h
    next dlen hd =>
      have htok := (Option.some.injEq _ _).mp h
      subst htok
      have hsplit : s.take (s.takeWhile isLocalChar).length = s.takeWhile isLocalChar :=
        take_length_takeWhile isLocalChar s
      set r1 := s.takeWhile isLocalChar with hr1def
      have hr1ne : r1 ≠ [] := by
        intro hcon
        rw [hcon] at hr1
        simp at hr1
      obtain ⟨hd1, hd2⟩ := domainSplit_le rest2 _ dlen hd
      have hs : s = r1 ++ '@' :: rest2 := by
        conv_lhs => rw [← List.take_append_drop r1.length s]
        rw [hsplit, heq]
      have hlen : (r1 ++ '@' :: rest2.take dlen).length = r1.length + (1 + dlen) := by
        simp [List.length_append, List.length_take]
        omega
      refine ⟨by simp [hr1ne], ?_, ?_⟩
      · rw [hlen]
        conv_rhs => rw [hs]
        simp [List.length_append]
        omega
      · rw [hlen]
        conv_rhs => rw [hs, List.take_append]
        congr 1
        have h1dlen : 1 + dlen = dlen + 1 := by omega
        rw [h1dlen, List.take_succ_cons]
    next => cases h
  case _ x hne => cases h

theorem emailScanFuel_shape : ∀ (fuel : Nat) (prev : Option Char) (s : List Char)
    (pos i : Nat) (tok : List Char), (i, tok) ∈ emailScanFuel fuel prev s pos →
    pos ≤ i ∧ (i - pos) + tok.length ≤ s.length ∧
    tok = sliceL s (i - pos) ((i - pos) + tok.length) := by
  intro fuel
  induction fuel with
  | zero => intro prev s pos i tok h; cases h
  | succ fuel ih =>
    intro prev s pos i tok h
    cases s with
    | nil => cases h
    | cons c rest =>
      simp only [emailScanFuel] at h
      split at h
      next tok0 hmatch =>
        obtain ⟨hne, hlen0, htake⟩ := emailMatchAt_shape prev (c :: rest) tok0 hmatch
        have hL : 1 ≤ tok0.length := List.length_pos.mpr hne
        rcases List.mem_cons.mp h with hh | hh
        · obtain ⟨rfl, rfl⟩ := Prod.mk.injEq .. |>.mp hh
          refine ⟨le_refl _, ?_, ?_⟩
          · rw [Nat.sub_self, Nat.zero_add]
            exact hlen0
          · rw [Nat.sub_self, sliceL_eq_take_drop]
            simpa using htake
        · obtain ⟨hp, hb, hsl⟩ := ih tok0.getLast? (rest.drop (tok0.length - 1))
            (pos + tok0.length) i tok hh
          have hdrop : rest.drop (tok0.length - 1) = (c :: rest).drop tok0.length := by
            have he : tok0.length = (tok0.length - 1) + 1 := by omega
            conv_rhs => rw [he]
            rw [List.drop_succ_cons]
          rw [hdrop] at hb hsl
          rw [sliceL_drop] at hsl
          have hslen : ((c :: rest).drop tok0.length).length
              = (c :: rest).length - tok0.length := List.length_drop _ _
          refine ⟨by omega, ?_, ?_⟩
          · rw [hslen] at hb
            have hlc : (c :: rest).length = rest.length + 1 := by simp
            omega
          · have e1 : tok0.length + (i - (pos + tok0.length)) = i - pos := by omega
            have e2 : tok0.length + (i - (pos + tok0.length) + tok.length)
                = (i - pos) + tok.length := by omega
            rw [e1, e2] at hsl
            exact hsl
      next hnone =>
        obtain ⟨hp, hb, hsl⟩ := ih (some c) rest (pos + 1) i tok h
        have hsl2 : tok = sliceL (c :: rest) (1 + (i - (pos + 1)))
            (1 + ((i - (pos + 1)) + tok.length)) := by
          rw [← sliceL_drop]
          exact hsl
        refine ⟨by omega, ?_, ?_⟩
        · simp only [List.length_cons]
          omega
        · have e1 : 1 + (i - (pos + 1)) = i - pos := by omega
          have e2 : 1 + ((i - (pos + 1)) + tok.length) = (i - pos) + tok.length := by omega
          rw [e1, e2] at hsl2
          exact hsl2

/-- The email scanner satisfies the JavaScript exec contract: every
reported pair `(index, text)` is the substring of the scanned text at
that index. -/
theorem emailExec_contract (text : List Char) (i : Nat) (tok : List Char)
    (h : (i, tok) ∈ emailExec text) :
    i + tok.length ≤ text.length ∧ sliceL text i (i + tok.length) = tok := by
  obtain ⟨_, hb, hsl⟩ := emailScanFuel_shape text.length none text 0 i tok h
  rw [Nat.sub_zero] at hb hsl
  exact ⟨hb, hsl.symm⟩

/-- Witness for C1: the email match of the reference example document,
at offset 8 with 18 characters, reads back from the document. -/
theorem accepted_match_substring_witness :
    (8 : Nat) + ("john.doe@email.com").data.length
        ≤ ("Contact john.doe@email.com now").data.length ∧
    sliceL ("Contact john.doe@email.com now").data 8
        (8 + ("john.doe@email.com").data.length) = ("john.doe@email.com").data :=
  accepted_match_substring emailExec emailExec_contract
    ("Contact john.doe@email.com now").data ⟨("john.doe@email.com").data, 8⟩
    (Or.inl (by decide))

/-! ## Email example (C8) -/

/-- C8 counterexample: the specification's expected masked output
contains 19 asterisks, but `"john.doe@email.com"` has 18 characters,
so the mask replacement (a run of `*` of the match text's length)
cannot produce the quoted string. -/
theorem emailExample_cex :
    (applyEncryption ("Contact john.doe@email.com now").data "mask" ""
        [("email", ⟨[⟨("john.doe@email.com").data, 8⟩], 1⟩)] ["email"]
        (fun _ => []) (fun _ _ => [])).1
      ≠ ("Contact ******************* now").data := by
  decide

/-- C8 amended: on `"Contact john.doe@email.com now"` the email
detector yields exactly one match, `"john.doe@email.com"` at offset 8,
and masking it produces `"Contact "` followed by 18 asterisks (the
match length) and `" now"` — one asterisk fewer than the spec's quoted
output. -/
theorem emailExample_spec :
    detectWith emailExec ("Contact john.doe@email.com now").data
      = [⟨("john.doe@email.com").data, 8⟩] ∧
    (applyEncryption ("Contact john.doe@email.com now").data "mask" ""
        [("email", ⟨[⟨("john.doe@email.com").data, 8⟩], 1⟩)] ["email"]
        (fun _ => []) (fun _ _ => [])).1
      = ("Contact ****************** now").data := by
  constructor
  · decide
  · decide

/-! ## Chunked vs. single-pass detection (C2) -/

theorem chunksFromFuel_step (fuel : Nat) (doc : List Char) (cs step i : Nat)
    (h : i < doc.length) :
    chunksFromFuel (fuel + 1) doc cs step i
      = ⟨sliceL doc i (min (i + cs) doc.length), i⟩ :: chunksFromFuel fuel doc cs step (i + step) := by
  simp [chunksFromFuel, h]

theorem chunksFromFuel_stop (fuel : Nat) (doc : List Char) (cs step i : Nat)
    (h : ¬ i < doc.length) :
    chunksFromFuel (fuel + 1) doc cs step i = [] := by
  simp [chunksFromFuel, h]

theorem emailMatchAt_space (prev : Option Char) (rest : List Char) :
    emailMatchAt prev (' ' :: rest) = none := by
  have h : isLocalChar ' ' = false := rfl
  simp [emailMatchAt, List.takeWhile_cons, h]

theorem emailScanFuel_space (fuel : Nat) (prev : Option Char) (rest : List Char) (pos : Nat) :
    emailScanFuel (fuel + 1) prev (' ' :: rest) pos
      = emailScanFuel fuel (some ' ') rest (pos + 1) := by
  simp [emailScanFuel, emailMatchAt_space]

/-- Scanning a run of spaces finds nothing and only advances the
position. -/
theorem emailScanFuel_spaces : ∀ (m fuel : Nat) (prev : Option Char) (rest : List Char)
    (pos : Nat),
    emailScanFuel (fuel + m) prev (List.replicate m ' ' ++ rest) pos
      = emailScanFuel fuel (if m = 0 then prev else some ' ') rest (pos + m) := by
  intro m
  induction m with
  | zero => intro fuel prev rest pos; simp
  | succ m ih =>
    intro fuel prev rest pos
    have h1 : List.replicate (m + 1) ' ' ++ rest = ' ' :: (List.replicate m ' ' ++ rest) := by
      simp [List.replicate_succ]
    have h2 : fuel + (m + 1) = (fuel + m) + 1 := by omega
    rw [h1, h2, emailScanFuel_space, ih fuel (some ' ') rest (pos + 1)]
    have h3 : pos + 1 + m = pos + (m + 1) := by omega
    have h4 : (if m = 0 then (some ' ' : Option Char) else some ' ') = some ' ' := by
      split <;> rfl
    have h5 : (if m + 1 = 0 then prev else some ' ') = some ' ' := by simp
    rw [h3, h4, h5]

/-- When all keys are fresh and pairwise distinct the dedup pass keeps
everything. -/
theorem dedupLoop_eq_self : ∀ (l : List PIIMatch) (seen : List (List Char)),
    (∀ m ∈ l, matchKey m ∉ seen) →
    l.Pairwise (fun a b => matchKey a ≠ matchKey b) →
    dedupLoop seen l = l := by
  intro l
  induction l with
  | nil => intro seen _ _; rfl
  | cons m rest ih =>
    intro seen hfresh hpw
    have hc : seen.contains (matchKey m) = false := by
      simp only [List.contains, List.elem_eq_mem, decide_eq_false_iff_not]
      exact hfresh m (List.mem_cons_self _ _)
    simp only [dedupLoop, hc, Bool.false_eq_true, if_false]
    congr 1
    apply ih
    · intro x hx
      simp only [List.mem_cons]
      push_neg
      constructor
      · exact fun hkey => (List.pairwise_cons.mp hpw).1 x hx hkey.symm
      · exact hfresh x (List.mem_cons_of_mem _ hx)
    · exact (List.pairwise_cons.mp hpw).2

/-- The scan reports strictly increasing indices. -/
theorem emailScanFuel_pairwise : ∀ (fuel : Nat) (prev : Option Char) (s : List Char)
    (pos : Nat), (emailScanFuel fuel prev s pos).Pairwise (fun a b => a.1 < b.1) := by
  intro fuel
  induction fuel with
  | zero => intro prev s pos; simp [emailScanFuel]
  | succ fuel ih =>
    intro prev s pos
    cases s with
    | nil => simp [emailScanFuel]
    | cons c rest =>
      simp only [emailScanFuel]
      split
      next tok0 hmatch =>
        have hne := (emailMatchAt_shape prev (c :: rest) tok0 hmatch).1
        have hL : 1 ≤ tok0.length := List.length_pos.mpr hne
        refine List.Pairwise.cons ?_ (ih _ _ _)
        intro b hb
        have := (emailScanFuel_shape fuel tok0.getLast? (rest.drop (tok0.length - 1))
          (pos + tok0.length) b.1 b.2 (by simpa using hb)).1
        omega
      next hnone => exact ih _ _ _

theorem detectWith_pairwise_keys (exec : List Char → List (Nat × List Char))
    (text : List Char) (hpw : (exec text).Pairwise (fun a b => a.1 < b.1)) :
    (detectWith exec text).Pairwise (fun a b => matchKey a ≠ matchKey b) := by
  unfold detectWith
  apply List.Pairwise.filterMap (acceptCandidate text) ?_ hpw
  intro p q hlt b hb b' hb'
  have h1 := acceptCandidate_shape text p b (Option.mem_def.mp hb)
  have h2 := acceptCandidate_shape text q b' (Option.mem_def.mp hb')
  subst h1
  subst h2
  intro hkey
  have hidx := (matchKey_inj hkey).1
  simp only [] at hidx
  omega

theorem detectWith_email_dedup_id (text : List Char) :
    dedupLoop [] (detectWith emailExec text) = detectWith emailExec text := by
  apply dedupLoop_eq_self
  · intro m _
    simp
  · exact detectWith_pairwise_keys emailExec text (emailScanFuel_pairwise _ _ _ _)

/-- C2 amended, positive half: for documents that fit in a single
window (length at most `windowSize - overlap = 9500`) the chunked
pipeline equals the single-pass detector, because the chunk list is the
whole document at offset 0 and the single-pass scan never repeats an
index, so dedup keeps everything. -/
theorem chunked_eq_single_window (doc : List Char) (hdoc : doc.length ≤ 9500) :
    ((chunkedDetectWith emailExec doc).map emailTriple).Perm
      ((detectWith emailExec doc).map emailTriple) := by
  have hmain : chunkedDetectWith emailExec doc = detectWith emailExec doc := by
    unfold chunkedDetectWith
    by_cases h0 : doc.length = 0
    · have hdocnil : doc = [] := List.length_eq_zero.mp h0
      subst hdocnil
      have hmc : makeChunks [] 10000 500 = [] := by
        unfold makeChunks
        exact chunksFromFuel_stop 0 [] 10000 9500 0 (by simp)
      rw [hmc]
      rfl
    · have hpos : 0 < doc.length := Nat.pos_of_ne_zero h0
      have hmc : makeChunks doc 10000 500 = [⟨doc, 0⟩] := by
        unfold makeChunks
        rw [chunksFromFuel_step doc.length doc 10000 9500 0 hpos]
        have hmin : min (0 + 10000) doc.length = doc.length := by omega
        have hslice : sliceL doc 0 (min (0 + 10000) doc.length) = doc := by
          rw [hmin]
          unfold sliceL
          rw [List.take_of_length_le (le_refl _), List.drop_zero]
        rw [hslice]
        congr 1
        cases hfl : doc.length with
        | zero => omega
        | succ n => exact chunksFromFuel_stop n doc 10000 9500 (0 + 9500) (by omega)
      rw [hmc]
      have hpc : processChunkWith emailExec ⟨doc, 0⟩ = detectWith emailExec doc := by
        unfold processChunkWith
        have hfun : (fun m : PIIMatch => PIIMatch.mk m.text (m.index + 0)) = id := by
          funext m
          cases m
          simp
        simp only []
        rw [hfun, List.map_id]
      simp only [List.map_cons, List.map_nil, hpc]
      rw [show [detectWith emailExec doc].flatten = detectWith emailExec doc by simp]
      exact detectWith_email_dedup_id doc
  rw [hmain]

/-- The boundary-straddling counterexample document for C2: 9992 spaces
followed by a ten-character email address.  The first window ends at
position 10000, cutting the address right after `ab@cd.ef` — itself a
well-formed match of the email pattern. -/
def bigDoc : List Char := List.replicate 9992 ' ' ++ ("ab@cd.efgh").data

theorem bigDoc_length : bigDoc.length = 10002 := by
  have h10 : ("ab@cd.efgh").data.length = 10 := rfl
  rw [bigDoc, List.length_append, List.length_replicate, h10]

theorem emailExec_bigDoc : emailExec bigDoc = [(9992, ("ab@cd.efgh").data)] := by
  show emailScanFuel bigDoc.length none bigDoc 0 = _
  rw [bigDoc_length, show (10002 : Nat) = 10 + 9992 by norm_num,
    show bigDoc = List.replicate 9992 ' ' ++ ("ab@cd.efgh").data from rfl,
    emailScanFuel_spaces 9992 10 none (("ab@cd.efgh").data) 0]
  norm_num
  decide

theorem detectWith_bigDoc :
    detectWith emailExec bigDoc = [⟨("ab@cd.efgh").data, 9992⟩] := by
  have hlen10 : ("ab@cd.efgh").data.length = 10 := rfl
  have hbefore : sliceL bigDoc 9982 9992 = List.replicate 10 ' ' := by
    unfold sliceL bigDoc
    rw [List.take_append_of_le_length (by rw [List.length_replicate]),
      List.take_replicate, List.drop_replicate]
    norm_num
  have hafter : sliceL bigDoc 10002 10012 = [] := by
    unfold sliceL
    rw [List.take_of_length_le (by rw [bigDoc_length]; norm_num)]
    exact List.drop_of_length_le (by rw [bigDoc_length])
  have hjson : isJsonStructure (List.replicate 10 ' ') (("ab@cd.efgh").data) [] = false := by
    decide
  have hacc : acceptCandidate bigDoc (9992, ("ab@cd.efgh").data)
      = some ⟨("ab@cd.efgh").data, 9992⟩ := by
    simp only [acceptCandidate, hlen10]
    norm_num
    rw [hbefore, hafter, hjson]
    simp
  unfold detectWith
  rw [emailExec_bigDoc]
  simp [List.filterMap_cons, hacc]

/-- Text of the first window of `bigDoc` (positions 0 to 10000): the
email is truncated to `ab@cd.ef`. -/
def chunk0text : List Char := List.replicate 9992 ' ' ++ ("ab@cd.ef").data

/-- Text of the second window of `bigDoc` (positions 9500 to 10002):
contains the full email. -/
def chunk1text : List Char := List.replicate 492 ' ' ++ ("ab@cd.efgh").data

theorem makeChunks_bigDoc :
    makeChunks bigDoc 10000 500 = [⟨chunk0text, 0⟩, ⟨chunk1text, 9500⟩] := by
  have hc0 : sliceL bigDoc 0 (min (0 + 10000) bigDoc.length) = chunk0text := by
    rw [bigDoc_length, show min (0 + 10000) (10002 : Nat) = 10000 by norm_num]
    unfold sliceL bigDoc chunk0text
    rw [List.drop_zero,
      show (10000 : Nat) = (List.replicate 9992 ' ').length + 8 by rw [List.length_replicate],
      List.take_append]
    rfl
  have hc1 : sliceL bigDoc (0 + 9500) (min (0 + 9500 + 10000) bigDoc.length) = chunk1text := by
    rw [bigDoc_length, show min (0 + 9500 + 10000) (10002 : Nat) = 10002 by norm_num]
    unfold sliceL
    rw [List.take_of_length_le (by have := bigDoc_length; omega),
      show (0 : Nat) + 9500 = 9500 by norm_num]
    unfold bigDoc chunk1text
    rw [List.drop_append_of_le_length (by rw [List.length_replicate]; norm_num),
      List.drop_replicate]
  unfold makeChunks
  rw [bigDoc_length, show (10000 : Nat) - 500 = 9500 by norm_num,
    show (10002 : Nat) + 1 = 10002 + 1 from rfl,
    chunksFromFuel_step 10002 bigDoc 10000 9500 0 (by have := bigDoc_length; omega),
    show (10002 : Nat) = 10001 + 1 by norm_num,
    chunksFromFuel_step 10001 bigDoc 10000 9500 (0 + 9500) (by have := bigDoc_length; omega),
    show (10001 : Nat) = 10000 + 1 by norm_num,
    chunksFromFuel_stop 10000 bigDoc 10000 9500 (0 + 9500 + 9500)
      (by have := bigDoc_length; omega),
    hc0, hc1]

theorem detect_chunk0 :
    detectWith emailExec chunk0text = [⟨("ab@cd.ef").data, 9992⟩] := by
  have hlen8 : ("ab@cd.ef").data.length = 8 := rfl
  have hexec0 : emailExec chunk0text = [(9992, ("ab@cd.ef").data)] := by
    show emailScanFuel chunk0text.length none chunk0text 0 = _
    have hl : chunk0text.length = 10000 := by
      rw [chunk0text, List.length_append, List.length_replicate, hlen8]
    rw [hl, show (10000 : Nat) = 8 + 9992 by norm_num,
      show chunk0text = List.replicate 9992 ' ' ++ ("ab@cd.ef").data from rfl,
      emailScanFuel_spaces 9992 8 none (("ab@cd.ef").data) 0]
    norm_num
    decide
  have hbefore : sliceL chunk0text 9982 9992 = List.replicate 10 ' ' := by
    unfold sliceL chunk0text
    rw [List.take_append_of_le_length (by rw [List.length_replicate]),
      List.take_replicate, List.drop_replicate]
    norm_num
  have hafter : sliceL chunk0text 10000 10010 = [] := by
    have hl : chunk0text.length = 10000 := by
      rw [chunk0text, List.length_append, List.length_replicate, hlen8]
    unfold sliceL
    rw [List.take_of_length_le (by omega)]
    exact List.drop_of_length_le (by omega)
  have hjson : isJsonStructure (List.replicate 10 ' ') (("ab@cd.ef").data) [] = false := by
    decide
  have hacc : acceptCandidate chunk0text (9992, ("ab@cd.ef").data)
      = some ⟨("ab@cd.ef").data, 9992⟩ := by
    simp only [acceptCandidate, hlen8]
    norm_num
    rw [hbefore, hafter, hjson]
    simp
  unfold detectWith
  rw [hexec0]
  simp [List.filterMap_cons, hacc]

theorem detect_chunk1 :
    detectWith emailExec chunk1text = [⟨("ab@cd.efgh").data, 492⟩] := by
  have hlen10 : ("ab@cd.efgh").data.length = 10 := rfl
  have hexec1 : emailExec chunk1text = [(492, ("ab@cd.efgh").data)] := by
    show emailScanFuel chunk1text.length none chunk1text 0 = _
    have hl : chunk1text.length = 502 := by
      rw [chunk1text, List.length_append, List.length_replicate, hlen10]
    rw [hl, show (502 : Nat) = 10 + 492 by norm_num,
      show chunk1text = List.replicate 492 ' ' ++ ("ab@cd.efgh").data from rfl,
      emailScanFuel_spaces 492 10 none (("ab@cd.efgh").data) 0]
    norm_num
    decide
  have hbefore : sliceL chunk1text 482 492 = List.replicate 10 ' ' := by
    unfold sliceL chunk1text
    rw [List.take_append_of_le_length (by rw [List.length_replicate]),
      List.take_replicate, List.drop_replicate]
    norm_num
  have hafter : sliceL chunk1text 502 512 = [] := by
    have hl : chunk1text.length = 502 := by
      rw [chunk1text, List.length_append, List.length_replicate, hlen10]
    unfold sliceL
    rw [List.take_of_length_le (by omega)]
    exact List.drop_of_length_le (by omega)
  have hjson : isJsonStructure (List.replicate 10 ' ') (("ab@cd.efgh").data) [] = false := by
    decide
  have hacc : acceptCandidate chunk1text (492, ("ab@cd.efgh").data)
      = some ⟨("ab@cd.efgh").data, 492⟩ := by
    simp only [acceptCandidate, hlen10]
    norm_num
    rw [hbefore, hafter, hjson]
    simp
  unfold detectWith
  rw [hexec1]
  simp [List.filterMap_cons, hacc]

theorem chunkedDetect_bigDoc :
    chunkedDetectWith emailExec bigDoc
      = [⟨("ab@cd.ef").data, 9992⟩, ⟨("ab@cd.efgh").data, 9992⟩] := by
  unfold chunkedDetectWith
  rw [makeChunks_bigDoc]
  have hp0 : processChunkWith emailExec ⟨chunk0text, 0⟩ = [⟨("ab@cd.ef").data, 9992⟩] := by
    show (detectWith emailExec chunk0text).map _ = _
    rw [detect_chunk0]
    simp
  have hp1 : processChunkWith emailExec ⟨chunk1text, 9500⟩
      = [⟨("ab@cd.efgh").data, 9992⟩] := by
    show (detectWith emailExec chunk1text).map _ = _
    rw [detect_chunk1]
    simp
  simp only [List.map_cons, List.map_nil, hp0, hp1]
  rw [show ([[(⟨("ab@cd.ef").data, 9992⟩ : PIIMatch)], [⟨("ab@cd.efgh").data, 9992⟩]]).flatten
      = [⟨("ab@cd.ef").data, 9992⟩, ⟨("ab@cd.efgh").data, 9992⟩] by simp]
  apply dedupLoop_eq_self
  · intro m _
    simp
  · have hkey : matchKey (⟨("ab@cd.ef").data, 9992⟩ : PIIMatch)
        ≠ matchKey ⟨("ab@cd.efgh").data, 9992⟩ := by
      intro h
      have htext := (matchKey_inj h).2
      exact absurd htext (by decide)
    refine List.Pairwise.cons ?_ (List.pairwise_singleton _ _)
    intro b hb
    rw [List.mem_singleton] at hb
    subst hb
    exact hkey

/-- C2 counterexample: on `bigDoc` the email crosses the first window's
edge; the first window accepts the truncated `ab@cd.ef` (the pattern
matches it, with the window end acting as a word boundary) while the
second window recovers the full address at the same offset.  The two
survive dedup as distinct identity pairs, so the chunked pipeline
returns two matches where the single pass returns one — the multisets
differ. -/
theorem chunked_vs_single_cex :
    ¬ ((chunkedDetectWith emailExec bigDoc).map emailTriple).Perm
        ((detectWith emailExec bigDoc).map emailTriple) := by
  intro hperm
  have hlen := hperm.length_eq
  rw [chunkedDetect_bigDoc, detectWith_bigDoc] at hlen
  simp at hlen

/-- Witness for the amended C2 on the reference example document
(30 characters, one window). -/
theorem chunked_eq_single_window_witness :
    ((chunkedDetectWith emailExec ("Contact john.doe@email.com now").data).map
        emailTriple).Perm
      ((detectWith emailExec ("Contact john.doe@email.com now").data).map emailTriple) :=
  chunked_eq_single_window ("Contact john.doe@email.com now").data (by decide)

/-- Witness for C7: a category with a duplicated match collapses to one
occurrence whose stored count equals its list length. -/
theorem deduplicateMatches_spec_witness :
    (("email", (⟨[⟨("a").data, 0⟩], 1⟩ : PIIData))
      ∈ deduplicateMatches [("email", ⟨[⟨("a").data, 0⟩, ⟨("a").data, 0⟩], 2⟩)]) ∧
    (⟨[⟨("a").data, 0⟩], 1⟩ : PIIData).count
      = (⟨[⟨("a").data, 0⟩], 1⟩ : PIIData).matches.length := by
  constructor
  · decide
  · exact (deduplicateMatches_spec [("email", ⟨[⟨("a").data, 0⟩, ⟨("a").data, 0⟩], 2⟩)]).2.1
      ("email", ⟨[⟨("a").data, 0⟩], 1⟩) (by decide)
